import Mathlib

/-!
Verification of the semantic-search pipeline: a shallow embedding of the
rate-limited batch embedding pipeline (`src/embed.py`,
`scripts/run_embedding.py`), the HNSW index builder (`src/build_index.py`)
and the query engine (`src/search.py`), with theorems settling the frozen
claims about the natural-language specification.

Modelling conventions:
* floats are idealized as rationals (`ℚ`); vectors are `List ℚ`;
* a corpus line (one JSON object) is a `Record` carrying its `decl` and
  `text` fields — JSON parsing itself is out of scope;
* the monotonic clock readings taken by the code are explicit parameters
  (`now` at entry, `now2` after a sleep);
* the remote embedding endpoint is a parameter `api : String → Vec`; per
  the provider interface contract the response to a list of inputs is the
  order-preserving list of per-input vectors, i.e. `List.map api`.
-/

namespace LeanSearch

/-- A vector of rational numbers, idealizing a row of float32 values. -/
abbrev Vec := List ℚ

/-- One corpus line: the fields of the JSON object that the core reads
(`decl` for the name table, `text` for embedding). -/
structure Record where
  decl : String
  text : String
deriving DecidableEq

/-- Embedding dimension of the default model (`text-embedding-3-large`),
as computed in `embed_jsonl_to_vecs` / `run_embedding.py` (`DIM = 3_072`). -/
def DIM : ℕ := 3072

/-- The all-zero vector of a given dimension (`np.zeros(DIM)`). -/
def zeroVec (d : ℕ) : Vec := List.replicate d 0

/-! ### Rate limiter (`throttle` in `src/embed.py` and in
`scripts/run_embedding.py`; the two definitions are textually identical) -/

/-- Constant `TPM_LIMIT = 350_000`: token budget per 60-second window. -/
def TPM_LIMIT : ℕ := 350000

/-- The module-level throttle state: `sent_tokens` (tokens sent in the
current window) and `window_start` (clock reading at window start). -/
structure ThrottleState where
  sent_tokens : ℕ
  window_start : ℚ
deriving DecidableEq

/-- Result of one `throttle` call: the updated state and the duration of
the `asyncio.sleep`, if one was performed (`none` = returned immediately). -/
structure ThrottleOut where
  state : ThrottleState
  sleep : Option ℚ
deriving DecidableEq

/-- Function `throttle(tok_cnt)` from `src/embed.py` lines 33–42 (identical to
`scripts/run_embedding.py` lines 49–58).  `now` is the clock reading taken
at entry; `now2` is the clock reading taken after the sleep (used only on
the sleeping path).  Mirrors:
```
now = asyncio.get_event_loop().time()
if now - window_start >= 60:
    sent_tokens, window_start = 0, now
if sent_tokens + tok_cnt > TPM_LIMIT:
    await asyncio.sleep(60 - (now - window_start))
    sent_tokens, window_start = 0, asyncio.get_event_loop().time()
sent_tokens += tok_cnt
```
-/
def throttle (s : ThrottleState) (tok_cnt : ℕ) (now now2 : ℚ) : ThrottleOut :=
  let s1 : ThrottleState :=
    if 60 ≤ now - s.window_start then ⟨0, now⟩ else s
  if TPM_LIMIT < s1.sent_tokens + tok_cnt then
    { state := ⟨0 + tok_cnt, now2⟩, sleep := some (60 - (now - s1.window_start)) }
  else
    { state := ⟨s1.sent_tokens + tok_cnt, s1.window_start⟩, sleep := none }

/-! ### Embedding client

Two implementations exist in the repository:
* `_embed` inside `embed_jsonl_to_vecs` (`src/embed.py` lines 61–69) sends
  the whole batch to the endpoint, with no special handling of empty
  strings;
* `embed` in `scripts/run_embedding.py` lines 61–81 removes empty strings
  before the remote call and re-interleaves zero vectors afterwards.
-/

/-- Token cost computed by `_embed` (`src/embed.py`):
`sum(len(enc.encode(t)) for t in batch)` — every entry is tokenized. -/
def tokenCountSrc (enc : String → ℕ) (batch : List String) : ℕ :=
  (batch.map enc).sum

/-- The list of strings `_embed` passes to the remote endpoint
(`input=batch`): the whole batch, empty strings included. -/
def remoteInputSrc (batch : List String) : List String := batch

/-- Vectors returned by `_embed` (`src/embed.py` lines 61–69): the remote
response for `input=batch`, which under the provider's order-preserving
interface contract is one vector per input in order. -/
def embedSrc (api : String → Vec) (batch : List String) : List Vec :=
  batch.map api

/-- The list `valid = [t for t in batch if t]` in `scripts/run_embedding.py`:
the non-empty entries, in order. -/
def validTexts (batch : List String) : List String :=
  batch.filter (fun t => t ≠ "")

/-- Token cost computed by the script's `embed`
(`sum(len(ENC.encode(t)) for t in valid)`): only non-empty entries. -/
def tokenCountScript (enc : String → ℕ) (batch : List String) : ℕ :=
  ((validTexts batch).map enc).sum

/-- The remote call made by the script's `embed`: `none` when `valid` is
empty (the call is skipped entirely), else `input=valid`. -/
def remoteInputScript (batch : List String) : Option (List String) :=
  if validTexts batch = [] then none else some (validTexts batch)

/-- The re-interleaving loop of the script's `embed`:
```
data_iter = iter(resp.data)
out = []
for t in batch:
    out.append(next(data_iter).embedding if t else np.zeros(DIM))
```
`none` models the `StopIteration` raised if the response runs short. -/
def reinterleave (z : Vec) : List String → List Vec → Option (List Vec)
  | [], _ => some []
  | t :: ts, ds =>
    if t = "" then (reinterleave z ts ds).map (fun l => z :: l)
    else
      match ds with
      | [] => none
      | d :: ds2 => (reinterleave z ts ds2).map (fun l => d :: l)

/-- Function `embed` from `scripts/run_embedding.py` lines 61–81: empty batches of
valid text short-circuit to zero vectors; otherwise the remote response
for `input=valid` (= `(validTexts batch).map api` by the provider
contract) is re-interleaved into the original positions. -/
def embedScript (api : String → Vec) (batch : List String) : Option (List Vec) :=
  if validTexts batch = [] then
    some (List.replicate batch.length (zeroVec DIM))
  else
    reinterleave (zeroVec DIM) batch ((validTexts batch).map api)

/-! ### Batch embedding pipeline (`embed_jsonl_to_vecs`, `src/embed.py`
lines 46–84; the streaming loop of `main` in `scripts/run_embedding.py`
lines 84–99 is identical up to the choice of embedding client) -/

/-- One `vecs[off : off + len(rows)] = rows` memmap slice assignment:
rows `off, …, off + rows.length − 1` of the matrix are overwritten, in
order.  `none` entries of the matrix model not-yet-written rows. -/
def writeSlice (m : List (Option Vec)) (off : ℕ) (rows : List Vec) :
    List (Option Vec) :=
  m.take off ++ rows.map some ++ m.drop (off + rows.length)

/-- Result of the streaming loop: the next write offset `row`, the matrix
content `mat`, and the log of slice writes performed, each as
`(offset, rowCount)` in the order they were issued. -/
structure LoopOut where
  row : ℕ
  mat : List (Option Vec)
  log : List (ℕ × ℕ)
deriving DecidableEq

/-- The streaming loop of `embed_jsonl_to_vecs`:
```
row, buf = 0, []
async for line in fh:
    buf.append(json.loads(line)["text"])
    if len(buf) == batch_rows:
        vecs[row : row + batch_rows] = await _embed(buf)
        row += batch_rows
        buf.clear()
if buf:
    vecs[row : row + len(buf)] = await _embed(buf)
```
`emb` is the batch embedding client (`_embed` for `src/embed.py`,
`embed` for `scripts/run_embedding.py`). -/
def pipelineLoop (emb : List String → List Vec) (B : ℕ) :
    List Record → ℕ → List String → List (Option Vec) → LoopOut
  | [], row, buf, m =>
    if buf.isEmpty then ⟨row, m, []⟩
    else ⟨row + buf.length, writeSlice m row (emb buf), [(row, buf.length)]⟩
  | r :: rs, row, buf, m =>
    let buf2 := buf ++ [r.text]
    if buf2.length = B then
      let out := pipelineLoop emb B rs (row + B) [] (writeSlice m row (emb buf2))
      ⟨out.row, out.mat, (row, B) :: out.log⟩
    else
      pipelineLoop emb B rs row buf2 m

/-- Final result of `embed_jsonl_to_vecs`: the pre-counted row count, the
matrix content, the write log, and whether `vecs.flush()` ran before
returning. -/
structure PipelineOut where
  nRows : ℕ
  mat : List (Option Vec)
  log : List (ℕ × ℕ)
  flushed : Bool
deriving DecidableEq

/-- Function `embed_jsonl_to_vecs` (`src/embed.py` lines 46–84): counts the corpus
lines, allocates an `n_rows × dim` matrix (unwritten rows modelled as
`none`), streams the corpus through the batching loop with `_embed`
(= `embedSrc api`, under the provider contract), flushes, and returns the
pre-counted row count. -/
def embed_jsonl_to_vecs (api : String → Vec) (B : ℕ) (corpus : List Record) :
    PipelineOut :=
  let n_rows := corpus.length
  let out := pipelineLoop (embedSrc api) B corpus 0 []
    (List.replicate n_rows none)
  ⟨n_rows, out.mat, out.log, true⟩

/-- Predicate `consecutiveFrom off log` holds when the writes in `log` start exactly
at `off`, are all non-empty and contiguous: each write begins where the
previous one ended.  (Strictly-in-order, no overlap, no gap.) -/
def consecutiveFrom : ℕ → List (ℕ × ℕ) → Bool
  | _, [] => true
  | off, (o, l) :: rest =>
    o == off && l != 0 && consecutiveFrom (off + l) rest

/-- Total number of rows covered by a write log. -/
def sumLens (log : List (ℕ × ℕ)) : ℕ := (log.map Prod.snd).sum

/-! ### Index builder (`build_hnsw`, `src/build_index.py` lines 25–62) -/

/-- The chunked insertion loop
```
for start in range(0, n_rows, chunk):
    end = min(start + chunk, n_rows)
    index.add(np.ascontiguousarray(vecs[start:end]))
```
flattened to the sequence of vectors handed to `index.add`, in insertion
order (HNSW assigns row ids sequentially in insertion order).  The guard
`0 < chunk` mirrors `range`'s rejection of a zero step. -/
def addChunks (vecs : List Vec) (chunk : ℕ) (start : ℕ) : List Vec :=
  if _h : start < vecs.length ∧ 0 < chunk then
    (vecs.drop start).take chunk ++ addChunks vecs chunk (start + chunk)
  else []
termination_by vecs.length - start
decreasing_by omega

/-- Result of `build_hnsw`: the row count, the index content (vectors in
insertion order), and the persisted name table. -/
structure BuildOut where
  nRows : ℕ
  indexVecs : List Vec
  names : List String
deriving DecidableEq

/-- Function `build_hnsw` (`src/build_index.py` lines 25–62): row count from file
size (`bytes_total // (dim*4)`, i.e. the matrix length), vectors inserted
in contiguous chunks with no other transformation (in particular no
normalization), and the name table
`[json.loads(line)["decl"] for line in open(jsonl_path)]`. -/
def build_hnsw (matrix : List Vec) (corpus : List Record) (chunk : ℕ) :
    BuildOut :=
  { nRows := matrix.length
    indexVecs := addChunks matrix chunk 0
    names := corpus.map Record.decl }

/-! ### Query engine (`k_nearest`, `src/search.py` lines 43–61) -/

/-- Sum of pairwise products of two rational vectors (the Euclidean inner
product; trailing entries of the longer vector are ignored). -/
def dotProd : Vec → Vec → ℚ
  | a :: as, b :: bs => a * b + dotProd as bs
  | _, _ => 0

/-- Squared Euclidean distance between two rational vectors — the metric
FAISS `IndexHNSWFlat` reports (`METRIC_L2` returns squared distances). -/
def sqDist : Vec → Vec → ℚ
  | a :: as, b :: bs => (a - b) ^ 2 + sqDist as bs
  | _, _ => 0

/-- Ascending-by-distance ordering on `(row index, distance)` pairs. -/
def distLE (a b : Int × ℚ) : Prop := a.2 ≤ b.2

instance : DecidableRel distLE := fun a b => inferInstanceAs (Decidable (a.2 ≤ b.2))

instance : IsTotal (Int × ℚ) distLE := ⟨fun a b => le_total a.2 b.2⟩

instance : IsTrans (Int × ℚ) distLE := ⟨fun _ _ _ h1 h2 => le_trans h1 h2⟩

/-- Modelled from the spec: the external FAISS call
`D, I = index.search(q, k)` (the ANN index internals are an external
library, out of the repository's source).  Per the spec's contract the
search returns, for the stored vectors, squared Euclidean distances to the
query, ordered ascending, `k` result slots, padding with the sentinel row
index `-1` when fewer than `k` vectors are held.  The model is the exact
k-nearest-neighbour search over the stored vectors. -/
def searchModel (idx : List Vec) (q : Vec) (k : ℕ) : List (Int × ℚ) :=
  (((List.range idx.length).map
      (fun (i : ℕ) => ((i : Int), sqDist q (idx.getD i [])))).insertionSort
        distLE).take k ++
    List.replicate (k - idx.length) ((-1 : Int), 0)

/-- Function `k_nearest` (`src/search.py` lines 43–61) after the query has been
embedded and L2-normalized: `qhat` is the normalized query vector (the
remote embedding call and `faiss.normalize_L2` happen outside the stored
data path).  Mirrors
```
D, I = index.search(q, k)
valid_results = [(names[int(i)], float(D[0][j]))
                 for j, i in enumerate(I[0]) if i != -1]
```
-/
def k_nearest (idx : List Vec) (names : List String) (qhat : Vec) (k : ℕ) :
    List (String × ℚ) :=
  (searchModel idx qhat k).filterMap fun p =>
    if p.1 = -1 then none else some (names.getD p.1.toNat "", p.2)

/-- A concrete remote endpoint for witnesses and counterexamples: every
text is answered with the all-ones vector of the configured dimension. -/
def onesApi : String → Vec := fun _ => List.replicate DIM 1

/-! ## Claims about the rate limiter -/

/-- Case analysis of one `throttle` call (shared helper). -/
theorem throttle_eq_cases (s : ThrottleState) (tok : ℕ) (now now2 : ℚ) :
    ((60 ≤ now - s.window_start ∧ tok ≤ TPM_LIMIT) →
      throttle s tok now now2 = ⟨⟨tok, now⟩, none⟩) ∧
    ((60 ≤ now - s.window_start ∧ TPM_LIMIT < tok) →
      throttle s tok now now2 = ⟨⟨tok, now2⟩, some 60⟩) ∧
    ((now - s.window_start < 60 ∧ TPM_LIMIT < s.sent_tokens + tok) →
      throttle s tok now now2 =
        ⟨⟨tok, now2⟩, some (60 - (now - s.window_start))⟩) ∧
    ((now - s.window_start < 60 ∧ s.sent_tokens + tok ≤ TPM_LIMIT) →
      throttle s tok now now2 =
        ⟨⟨s.sent_tokens + tok, s.window_start⟩, none⟩) := by
  refine ⟨fun h => ?_, fun h => ?_, fun h => ?_, fun h => ?_⟩
  · simp only [throttle, if_pos h.1]
    rw [if_neg (by simp; omega)]
    simp
  · simp only [throttle, if_pos h.1]
    rw [if_pos (by simp; omega)]
    simp
  · simp only [throttle, if_neg (not_le.mpr h.1)]
    rw [if_pos (by omega)]
    simp
  · simp only [throttle, if_neg (not_le.mpr h.1)]
    rw [if_neg (by omega)]

/-- C5. For every call `acquire(token_count)` on rate-limiter state
`(window_start, sent_tokens)` at clock time `now`: if
`now − window_start ≥ 60` the counters are first reset; then if
`sent_tokens + token_count` exceeds the budget the caller is suspended for
exactly the remaining time in the current 60-second window and the
counters are reset before proceeding (the window restarting at the
post-sleep clock reading `now2`, the call's `token_count` then recorded);
otherwise `token_count` is added to `sent_tokens` immediately and the call
returns without delay.  In particular, after a window elapses a subsequent
acquire for up to `TPM_LIMIT` tokens proceeds without any suspension. -/
theorem throttle_spec (s : ThrottleState) (tok : ℕ) (now now2 : ℚ) :
    ((60 ≤ now - s.window_start ∧ tok ≤ TPM_LIMIT) →
      throttle s tok now now2 = ⟨⟨tok, now⟩, none⟩) ∧
    ((60 ≤ now - s.window_start ∧ TPM_LIMIT < tok) →
      throttle s tok now now2 = ⟨⟨tok, now2⟩, some 60⟩) ∧
    ((now - s.window_start < 60 ∧ TPM_LIMIT < s.sent_tokens + tok) →
      throttle s tok now now2 =
        ⟨⟨tok, now2⟩, some (60 - (now - s.window_start))⟩) ∧
    ((now - s.window_start < 60 ∧ s.sent_tokens + tok ≤ TPM_LIMIT) →
      throttle s tok now now2 =
        ⟨⟨s.sent_tokens + tok, s.window_start⟩, none⟩) :=
  throttle_eq_cases s tok now now2

/-- Witness for C5: state `(sent_tokens, window_start) = (300000, 0)` at
`now = 61` (window elapsed) acquiring `350000 ≤ TPM_LIMIT` tokens: the
counters reset and the call proceeds with no suspension. -/
theorem throttle_spec_witness :
    ((60:ℚ) ≤ 61 - (⟨300000, 0⟩ : ThrottleState).window_start ∧
      350000 ≤ TPM_LIMIT) ∧
    throttle ⟨300000, 0⟩ 350000 61 61 = ⟨⟨350000, 61⟩, none⟩ := by
  have h : (60:ℚ) ≤ 61 - (⟨300000, 0⟩ : ThrottleState).window_start ∧
      350000 ≤ TPM_LIMIT := by
    refine ⟨by norm_num, by norm_num [TPM_LIMIT]⟩
  exact ⟨h, (throttle_spec ⟨300000, 0⟩ 350000 61 61).1 h⟩

/-- C10. `throttle` terminates for every token count (it is a total
function of the model): each call suspends at most once (the `sleep` field
holds at most one duration), for exactly the remainder of the current
60-second window — the window as re-based by the entry reset — hence for a
positive duration of at most 60 seconds, and then returns after adding
`token_count` to `sent_tokens`.  A single request whose `token_count`
alone exceeds the whole budget is still admitted after one window wait,
never rejected, leaving `sent_tokens` above the budget. -/
theorem throttle_terminating (s : ThrottleState) (tok : ℕ) (now now2 : ℚ)
    (hw : s.window_start ≤ now) :
    (∀ d, (throttle s tok now now2).sleep = some d →
      d = 60 - (now - (if 60 ≤ now - s.window_start then now
                       else s.window_start)) ∧ 0 < d ∧ d ≤ 60) ∧
    ((throttle s tok now now2).state.sent_tokens = tok ∨
      (throttle s tok now now2).state.sent_tokens = s.sent_tokens + tok) ∧
    (TPM_LIMIT < tok →
      ((throttle s tok now now2).sleep.isSome ∧
        (throttle s tok now now2).state.sent_tokens = tok ∧
        TPM_LIMIT < (throttle s tok now now2).state.sent_tokens)) := by
  obtain ⟨c1, c2, c3, c4⟩ := throttle_eq_cases s tok now now2
  by_cases h60 : 60 ≤ now - s.window_start
  · by_cases hov : TPM_LIMIT < tok
    · rw [c2 ⟨h60, hov⟩]
      refine ⟨fun d hd => ?_, Or.inl rfl, fun _ => ⟨rfl, rfl, hov⟩⟩
      obtain rfl : (60:ℚ) = d := Option.some.inj hd
      rw [if_pos h60]
      refine ⟨by ring, by norm_num, le_refl _⟩
    · rw [c1 ⟨h60, not_lt.mp hov⟩]
      exact ⟨fun d hd => by simp at hd, Or.inl rfl,
        fun htok => absurd htok hov⟩
  · push_neg at h60
    by_cases hov : TPM_LIMIT < s.sent_tokens + tok
    · rw [c3 ⟨h60, hov⟩]
      refine ⟨fun d hd => ?_, Or.inl rfl, fun htok => ⟨rfl, rfl, htok⟩⟩
      obtain rfl : 60 - (now - s.window_start) = d := Option.some.inj hd
      rw [if_neg (not_le.mpr h60)]
      refine ⟨rfl, by linarith, by linarith [sub_nonneg.mpr hw]⟩
    · rw [c4 ⟨h60, not_lt.mp hov⟩]
      exact ⟨fun d hd => by simp at hd, Or.inr rfl,
        fun htok => absurd (by omega : TPM_LIMIT < s.sent_tokens + tok) hov⟩

/-- Witness for C10: a single 400000-token request (above the whole
350000 budget) on a fresh window is admitted after one bounded wait. -/
theorem throttle_terminating_witness :
    ((⟨0, 0⟩ : ThrottleState).window_start ≤ (30:ℚ)) ∧
    (TPM_LIMIT < 400000 →
      ((throttle ⟨0, 0⟩ 400000 30 60).sleep.isSome ∧
        (throttle ⟨0, 0⟩ 400000 30 60).state.sent_tokens = 400000 ∧
        TPM_LIMIT < (throttle ⟨0, 0⟩ 400000 30 60).state.sent_tokens)) := by
  have hw : (⟨0, 0⟩ : ThrottleState).window_start ≤ (30:ℚ) := by norm_num
  exact ⟨hw, fun _ =>
    (throttle_terminating ⟨0, 0⟩ 400000 30 60 hw).2.2
      (by norm_num [TPM_LIMIT])⟩

/-! ## Claims about the embedding client -/

/-- The iterator re-interleaving never exhausts the response when the
response is exactly the provider's answer for the non-empty entries, and
the result places `api t` at each non-empty position and `z` at each
empty one (shared helper). -/
theorem reinterleave_spec (z : Vec) (api : String → Vec) :
    ∀ ts : List String,
      reinterleave z ts ((ts.filter (fun t => t ≠ "")).map api) =
        some (ts.map (fun t => if t = "" then z else api t)) := by
  intro ts
  induction ts with
  | nil => rfl
  | cons t ts ih =>
    by_cases ht : t = ""
    · subst ht
      simp [reinterleave, List.filter_cons]
      simpa using ih
    · simp [reinterleave, List.filter_cons, ht]
      simpa using ih

/-- The script's `embed` always succeeds and equals the per-position map:
zero vector at empty positions, `api t` elsewhere (shared helper). -/
theorem embedScript_eq (api : String → Vec) (batch : List String) :
    embedScript api batch =
      some (batch.map (fun t => if t = "" then zeroVec DIM else api t)) := by
  unfold embedScript
  by_cases hv : validTexts batch = []
  · rw [if_pos hv]
    congr 1
    have hall : ∀ t ∈ batch, t = "" := by
      intro t ht
      by_contra hne
      have : t ∈ validTexts batch := by
        simp [validTexts, List.mem_filter, ht, hne]
      simp [hv] at this
    symm
    rw [List.eq_replicate_iff]
    refine ⟨by simp, ?_⟩
    intro b hb
    obtain ⟨t, ht, rfl⟩ := List.mem_map.mp hb
    simp [hall t ht]
  · rw [if_neg hv]
    exact reinterleave_spec (zeroVec DIM) api batch

/-- Unfolding the script's token charge over a cons (shared helper). -/
theorem tokenCountScript_cons (enc : String → ℕ) (t : String)
    (l : List String) :
    tokenCountScript enc (t :: l) =
      (if t = "" then 0 else enc t) + tokenCountScript enc l := by
  by_cases ht : t = "" <;>
    simp [tokenCountScript, validTexts, List.filter_cons, ht]

/-- Removing a list entry equal to `""` does not change the script's token
charge (shared helper). -/
theorem tokenCountScript_eraseIdx (enc : String → ℕ) :
    ∀ (batch : List String) (j : ℕ), batch.get? j = some "" →
      tokenCountScript enc (batch.eraseIdx j) = tokenCountScript enc batch := by
  intro batch
  induction batch with
  | nil => intro j hj; simp at hj
  | cons t ts ih =>
    intro j hj
    cases j with
    | zero =>
      have ht : t = "" := by simpa using hj
      subst ht
      rw [List.eraseIdx_cons_zero, tokenCountScript_cons]
      simp
    | succ j =>
      have hj2 : ts.get? j = some "" := by simpa using hj
      rw [List.eraseIdx_cons_succ, tokenCountScript_cons,
        tokenCountScript_cons, ih j hj2]

/-- C3 counterexample. The claim quantifies over the batch embedding
code, citing both `embed` in `scripts/run_embedding.py` and `_embed` in
`src/embed.py`; it fails for the latter: `_embed` passes the whole batch
to the remote endpoint (`input=batch`), so an empty entry *is* included in
the remote embedding call — here the batch `[""]` whose single empty entry
appears in the request — and the vector stored at its position is whatever
the endpoint returns for `""`, not a substituted zero vector (with the
endpoint answering the all-ones vector, position 0 holds it). -/
theorem embedSrc_empty_counterexample :
    "" ∈ remoteInputSrc [""] ∧
    embedSrc onesApi [""] = [List.replicate DIM 1] ∧
    List.replicate DIM (1:ℚ) ≠ zeroVec DIM := by
  refine ⟨by simp [remoteInputSrc], rfl, fun h => ?_⟩
  have h0 : (1:ℚ) ∈ List.replicate DIM (1:ℚ) := by
    rw [List.mem_replicate]
    exact ⟨by norm_num [DIM], rfl⟩
  rw [h] at h0
  have := List.eq_of_mem_replicate h0
  norm_num at this

/-- C3 amended. In the script's embedding client (`embed` in
`scripts/run_embedding.py`): for every batch and position `j`, if the text
at `j` is empty then the returned vector at `j` is the all-zero vector of
dimension `DIM`, the empty entry is not part of the remote call's input,
and the token charge handed to the rate limiter is unchanged by the
presence of that entry.  (In `src/embed.py`'s `_embed` the empty entry is
instead sent to the endpoint verbatim.) -/
theorem embedScript_empty_spec (api : String → Vec) (batch : List String)
    (j : ℕ) (hj : batch.get? j = some "") :
    (∃ vs, embedScript api batch = some vs ∧
      vs.get? j = some (zeroVec DIM)) ∧
    (∀ l, remoteInputScript batch = some l → "" ∉ l) ∧
    (∀ enc : String → ℕ,
      tokenCountScript enc (batch.eraseIdx j) = tokenCountScript enc batch) := by
  refine ⟨⟨batch.map (fun t => if t = "" then zeroVec DIM else api t),
    embedScript_eq api batch, ?_⟩, fun l hl hmem => ?_, fun enc =>
    tokenCountScript_eraseIdx enc batch j hj⟩
  · rw [List.get?_map, hj]
    simp
  · unfold remoteInputScript at hl
    by_cases hv : validTexts batch = []
    · rw [if_pos hv] at hl; exact Option.noConfusion hl
    · rw [if_neg hv] at hl
      obtain rfl : validTexts batch = l := Option.some.inj hl
      have := (List.mem_filter.mp hmem).2
      simp at this

/-- Witness for C3 (amended): the batch `["", "x"]` at position 0. -/
theorem embedScript_empty_spec_witness :
    ((["", "x"] : List String).get? 0 = some "") ∧
    ((∃ vs, embedScript onesApi ["", "x"] = some vs ∧
        vs.get? 0 = some (zeroVec DIM)) ∧
      (∀ l, remoteInputScript ["", "x"] = some l → "" ∉ l) ∧
      (∀ enc : String → ℕ,
        tokenCountScript enc ((["", "x"] : List String).eraseIdx 0) =
          tokenCountScript enc ["", "x"])) :=
  ⟨rfl, embedScript_empty_spec onesApi ["", "x"] 0 rfl⟩

/-- C6. For every list of input texts, the embedding client returns
one vector per input, of the configured dimension `DIM`, at the input's
original position: the script's `embed` re-interleaves the remote answers
for non-empty texts order-preservingly around substituted zero vectors,
and `_embed` maps the endpoint's order-preserving answers positionally.
(`hdim` is the provider contract that every returned vector has the
model's fixed dimension.) -/
theorem embed_batch_length_spec (api : String → Vec)
    (hdim : ∀ t, (api t).length = DIM) (batch : List String) :
    (∃ vs, embedScript api batch = some vs ∧
      vs.length = batch.length ∧
      (∀ j t, batch.get? j = some t →
        vs.get? j = some (if t = "" then zeroVec DIM else api t) ∧
        (if t = "" then zeroVec DIM else api t).length = DIM)) ∧
    ((embedSrc api batch).length = batch.length ∧
      ∀ j t, batch.get? j = some t →
        (embedSrc api batch).get? j = some (api t) ∧
        (api t).length = DIM) := by
  constructor
  · refine ⟨batch.map (fun t => if t = "" then zeroVec DIM else api t),
      embedScript_eq api batch, by simp, fun j t hjt => ⟨?_, ?_⟩⟩
    · rw [List.get?_map, hjt]
      rfl
    · by_cases ht : t = "" <;> simp [ht, zeroVec, hdim]
  · refine ⟨by simp [embedSrc], fun j t hjt => ⟨?_, hdim t⟩⟩
    rw [embedSrc, List.get?_map, hjt]
    rfl

/-- Witness for C6: a mixed batch of an empty and a non-empty text under a
dimension-respecting endpoint. -/
theorem embed_batch_length_spec_witness :
    (∀ t, (onesApi t).length = DIM) ∧
    ((∃ vs, embedScript onesApi ["a", ""] = some vs ∧
        vs.length = (["a", ""] : List String).length ∧
        (∀ j t, (["a", ""] : List String).get? j = some t →
          vs.get? j = some (if t = "" then zeroVec DIM else onesApi t) ∧
          (if t = "" then zeroVec DIM else onesApi t).length = DIM)) ∧
      ((embedSrc onesApi ["a", ""]).length =
          (["a", ""] : List String).length ∧
        ∀ j t, (["a", ""] : List String).get? j = some t →
          (embedSrc onesApi ["a", ""]).get? j = some (onesApi t) ∧
          (onesApi t).length = DIM)) := by
  have hdim : ∀ t, (onesApi t).length = DIM := fun _ => by
    simp [onesApi]
  exact ⟨hdim, embed_batch_length_spec onesApi hdim ["a", ""]⟩

/-! ## Claims about the batch embedding pipeline -/

/-- A slice write that ends exactly at the end of the matrix replaces its
tail (shared helper). -/
theorem writeSlice_exact (m : List (Option Vec)) (off : ℕ) (rows : List Vec)
    (h : m.length = off + rows.length) :
    writeSlice m off rows = m.take off ++ rows.map some := by
  unfold writeSlice
  rw [List.drop_eq_nil_of_le (by omega), List.append_nil]

/-- Unfolding lemma for `sumLens` (shared helper). -/
theorem sumLens_cons (p : ℕ × ℕ) (l : List (ℕ × ℕ)) :
    sumLens (p :: l) = p.2 + sumLens l := by
  simp [sumLens]

/-- Invariant of the streaming loop (shared helper): started at write
offset `row` with `buf` holding the texts of the already-consumed,
not-yet-flushed lines and a matrix of exactly the right length, the loop
returns offset `row + buf.length + rs.length`; the matrix keeps its first
`row` entries and continues with one embedded vector per pending text in
order; and the writes form a gapless, non-overlapping, in-order sequence
starting at `row` covering exactly the pending rows. -/
theorem pipelineLoop_spec (f : String → Vec) (B : ℕ) (hB : 0 < B) :
    ∀ (rs : List Record) (row : ℕ) (buf : List String)
      (m : List (Option Vec)),
      buf.length < B →
      m.length = row + buf.length + rs.length →
      (pipelineLoop (fun ts => ts.map f) B rs row buf m).row =
          row + buf.length + rs.length ∧
      (pipelineLoop (fun ts => ts.map f) B rs row buf m).mat =
          m.take row ++
            (buf ++ rs.map Record.text).map (fun t => some (f t)) ∧
      consecutiveFrom row (pipelineLoop (fun ts => ts.map f) B rs row buf m).log
          = true ∧
      sumLens (pipelineLoop (fun ts => ts.map f) B rs row buf m).log =
          buf.length + rs.length := by
  intro rs
  induction rs with
  | nil =>
    intro row buf m hbuf hm
    simp only [List.length_nil, Nat.add_zero] at hm
    by_cases hb : buf = []
    · subst hb
      have heq : pipelineLoop (fun ts => ts.map f) B [] row [] m =
          ⟨row, m, []⟩ := by
        simp [pipelineLoop]
      rw [heq]
      refine ⟨by simp, ?_, rfl, by simp [sumLens]⟩
      simp only [List.nil_append, List.map_nil, List.append_nil]
      simp only [List.length_nil, Nat.add_zero] at hm
      rw [← hm, List.take_length]
    · have hne : buf.isEmpty = false := by
        simpa [List.isEmpty_iff] using hb
      have heq : pipelineLoop (fun ts => ts.map f) B [] row buf m =
          ⟨row + buf.length, writeSlice m row (buf.map f),
            [(row, buf.length)]⟩ := by
        simp [pipelineLoop, hne]
      rw [heq]
      have hlen : buf.length ≠ 0 := fun h => hb (List.length_eq_zero.mp h)
      refine ⟨by simp, ?_, ?_, by simp [sumLens]⟩
      · rw [writeSlice_exact m row (buf.map f) (by simp; omega)]
        simp [Function.comp]
      · simp [consecutiveFrom, hlen]
  | cons r rs ih =>
    intro row buf m hbuf hm
    have hmlen : m.length = row + buf.length + (rs.length + 1) := by
      simpa using hm
    by_cases hfull : buf.length + 1 = B
    · have hful2 : (buf ++ [r.text]).length = B := by simpa using hfull
      have heq : pipelineLoop (fun ts => ts.map f) B (r :: rs) row buf m =
          ⟨(pipelineLoop (fun ts => ts.map f) B rs (row + B) []
              (writeSlice m row ((buf ++ [r.text]).map f))).row,
            (pipelineLoop (fun ts => ts.map f) B rs (row + B) []
              (writeSlice m row ((buf ++ [r.text]).map f))).mat,
            (row, B) :: (pipelineLoop (fun ts => ts.map f) B rs (row + B) []
              (writeSlice m row ((buf ++ [r.text]).map f))).log⟩ := by
        simp only [pipelineLoop, if_pos hful2]
      rw [heq]
      have hm2 : (writeSlice m row ((buf ++ [r.text]).map f)).length =
          (row + B) + 0 + rs.length := by
        unfold writeSlice
        simp only [List.length_append, List.length_take, List.length_drop,
          List.length_map, List.length_cons, List.length_nil]
        omega
      obtain ⟨h1, h2, h3, h4⟩ := ih (row + B) []
        (writeSlice m row ((buf ++ [r.text]).map f)) hB hm2
      have htake : (writeSlice m row ((buf ++ [r.text]).map f)).take
          (row + B) = m.take row ++
            (buf ++ [r.text]).map (fun t => some (f t)) := by
        unfold writeSlice
        rw [List.take_left' (by
          simp only [List.length_append, List.length_take, List.length_map,
            List.length_cons, List.length_nil]
          omega)]
        simp [List.map_map, Function.comp]
      refine ⟨?_, ?_, ?_, ?_⟩
      · rw [h1]
        simp only [List.length_nil, List.length_cons]
        omega
      · rw [h2, htake, List.nil_append, List.append_assoc,
          ← List.map_append]
        simp
      · simp only [consecutiveFrom, beq_self_eq_true, Bool.true_and,
          Bool.and_eq_true, bne_iff_ne]
        exact ⟨by omega, h3⟩
      · rw [sumLens_cons, h4]
        simp only [List.length_nil, List.length_cons]
        omega
    · have hful2 : ¬((buf ++ [r.text]).length = B) := by
        simpa using hfull
      have heq : pipelineLoop (fun ts => ts.map f) B (r :: rs) row buf m =
          pipelineLoop (fun ts => ts.map f) B rs row (buf ++ [r.text]) m := by
        simp only [pipelineLoop, if_neg hful2]
      rw [heq]
      obtain ⟨h1, h2, h3, h4⟩ := ih row (buf ++ [r.text]) m
        (by simp only [List.length_append, List.length_cons,
          List.length_nil]; omega)
        (by simp only [List.length_append, List.length_cons,
          List.length_nil]; omega)
      refine ⟨?_, ?_, h3, ?_⟩
      · rw [h1]
        simp only [List.length_append, List.length_cons, List.length_nil]
        omega
      · rw [h2]
        congr 2
        simp
      · rw [h4]
        simp only [List.length_append, List.length_cons, List.length_nil]
        omega

/-- C1. For every corpus of `N` lines and every batch size `B ≥ 1`,
`embed_jsonl_to_vecs` reports `N` rows, produces a matrix of exactly `N`
rows in which row `i` holds the embedding of the `text` field of corpus
line `i` (every row written — no gaps — and nothing else), issues its
slice writes gaplessly, non-overlappingly and strictly in corpus order
starting at row 0 and covering exactly `N` rows (so the final partial
batch of `N mod B` rows is flushed like the others), and flushes the
matrix before returning. -/
theorem embed_jsonl_correct (api : String → Vec) (B : ℕ)
    (corpus : List Record) (hB : 0 < B) :
    (embed_jsonl_to_vecs api B corpus).nRows = corpus.length ∧
    (embed_jsonl_to_vecs api B corpus).mat.length = corpus.length ∧
    (∀ i, (embed_jsonl_to_vecs api B corpus).mat.get? i =
      (corpus.get? i).map (fun r => some (api r.text))) ∧
    consecutiveFrom 0 (embed_jsonl_to_vecs api B corpus).log = true ∧
    sumLens (embed_jsonl_to_vecs api B corpus).log = corpus.length ∧
    (embed_jsonl_to_vecs api B corpus).flushed = true := by
  obtain ⟨h1, h2, h3, h4⟩ := pipelineLoop_spec api B hB corpus 0 []
    (List.replicate corpus.length none) (by simpa using hB) (by simp)
  have hmateq : (embed_jsonl_to_vecs api B corpus).mat =
      (pipelineLoop (fun ts => ts.map api) B corpus 0 []
        (List.replicate corpus.length none)).mat := rfl
  have hlogeq : (embed_jsonl_to_vecs api B corpus).log =
      (pipelineLoop (fun ts => ts.map api) B corpus 0 []
        (List.replicate corpus.length none)).log := rfl
  have hmat : (embed_jsonl_to_vecs api B corpus).mat =
      corpus.map (fun r => some (api r.text)) := by
    rw [hmateq, h2]
    simp [List.map_map, Function.comp]
  refine ⟨rfl, ?_, ?_, ?_, ?_, rfl⟩
  · rw [hmat]; simp
  · intro i
    rw [hmat, List.get?_map]
  · rw [hlogeq]
    exact h3
  · rw [hlogeq]
    simpa using h4

/-- Witness for C1: a three-line corpus embedded with batch size 2 (so the
final partial batch has one row). -/
theorem embed_jsonl_correct_witness :
    (0 < 2) ∧
    ((embed_jsonl_to_vecs onesApi 2 [⟨"d0", "t0"⟩, ⟨"d1", "t1"⟩, ⟨"d2", "t2"⟩]).nRows
        = ([⟨"d0", "t0"⟩, ⟨"d1", "t1"⟩, ⟨"d2", "t2"⟩] : List Record).length ∧
      (embed_jsonl_to_vecs onesApi 2 [⟨"d0", "t0"⟩, ⟨"d1", "t1"⟩, ⟨"d2", "t2"⟩]).mat.length
        = ([⟨"d0", "t0"⟩, ⟨"d1", "t1"⟩, ⟨"d2", "t2"⟩] : List Record).length ∧
      (∀ i, (embed_jsonl_to_vecs onesApi 2 [⟨"d0", "t0"⟩, ⟨"d1", "t1"⟩, ⟨"d2", "t2"⟩]).mat.get? i
        = (([⟨"d0", "t0"⟩, ⟨"d1", "t1"⟩, ⟨"d2", "t2"⟩] : List Record).get? i).map
            (fun r => some (onesApi r.text))) ∧
      consecutiveFrom 0
        (embed_jsonl_to_vecs onesApi 2 [⟨"d0", "t0"⟩, ⟨"d1", "t1"⟩, ⟨"d2", "t2"⟩]).log = true ∧
      sumLens (embed_jsonl_to_vecs onesApi 2 [⟨"d0", "t0"⟩, ⟨"d1", "t1"⟩, ⟨"d2", "t2"⟩]).log
        = ([⟨"d0", "t0"⟩, ⟨"d1", "t1"⟩, ⟨"d2", "t2"⟩] : List Record).length ∧
      (embed_jsonl_to_vecs onesApi 2 [⟨"d0", "t0"⟩, ⟨"d1", "t1"⟩, ⟨"d2", "t2"⟩]).flushed
        = true) :=
  ⟨by norm_num,
    embed_jsonl_correct onesApi 2 [⟨"d0", "t0"⟩, ⟨"d1", "t1"⟩, ⟨"d2", "t2"⟩]
      (by norm_num)⟩

/-! ## Claims about the index builder -/

/-- The chunked insertion loop, started at `start` with any positive chunk
size, inserts exactly the rows from `start` on, in order (shared helper). -/
theorem addChunks_eq_drop (v : List Vec) (c : ℕ) (hc : 0 < c) :
    ∀ (n s : ℕ), v.length - s ≤ n → addChunks v c s = v.drop s := by
  intro n
  induction n with
  | zero =>
    intro s hs
    rw [addChunks, dif_neg (by omega), List.drop_eq_nil_of_le (by omega)]
  | succ n ih =>
    intro s hs
    by_cases hlt : s < v.length
    · rw [addChunks, dif_pos ⟨hlt, hc⟩, ih (s + c) (by omega),
        ← List.drop_drop]
      · exact List.take_append_drop c (v.drop s)
    · rw [addChunks, dif_neg (by omega), List.drop_eq_nil_of_le (by omega)]

/-- C2. After `build_hnsw` completes on corpus file `C`, the persisted
name table is an array whose length equals the number of lines of `C` and
whose entry `i` is the `decl` field of line `i` of `C`, in file order; and
the index holds exactly the rows of the accompanying matrix, row `i` of
the index being row `i` of the matrix, so entry `i` names the vector at
row `i` of the matrix produced from the same corpus file. -/
theorem build_hnsw_names_aligned (matrix : List Vec) (corpus : List Record)
    (chunk : ℕ) (hc : 0 < chunk) :
    (build_hnsw matrix corpus chunk).names.length = corpus.length ∧
    (∀ i, (build_hnsw matrix corpus chunk).names.get? i =
      (corpus.get? i).map Record.decl) ∧
    (build_hnsw matrix corpus chunk).indexVecs = matrix ∧
    (build_hnsw matrix corpus chunk).nRows = matrix.length := by
  refine ⟨by simp [build_hnsw], fun i => ?_, ?_, rfl⟩
  · simp [build_hnsw, List.get?_map]
  · show addChunks matrix chunk 0 = matrix
    rw [addChunks_eq_drop matrix chunk hc matrix.length 0 (by omega),
      List.drop_zero]

/-- Witness for C2: a two-line corpus with a two-row matrix, chunk size 1. -/
theorem build_hnsw_names_aligned_witness :
    (0 < 1) ∧
    ((build_hnsw [[(1:ℚ)], [2]] [⟨"d0", "t0"⟩, ⟨"d1", "t1"⟩] 1).names.length
        = ([⟨"d0", "t0"⟩, ⟨"d1", "t1"⟩] : List Record).length ∧
      (∀ i, (build_hnsw [[(1:ℚ)], [2]] [⟨"d0", "t0"⟩, ⟨"d1", "t1"⟩] 1).names.get? i
        = (([⟨"d0", "t0"⟩, ⟨"d1", "t1"⟩] : List Record).get? i).map Record.decl) ∧
      (build_hnsw [[(1:ℚ)], [2]] [⟨"d0", "t0"⟩, ⟨"d1", "t1"⟩] 1).indexVecs
        = [[(1:ℚ)], [2]] ∧
      (build_hnsw [[(1:ℚ)], [2]] [⟨"d0", "t0"⟩, ⟨"d1", "t1"⟩] 1).nRows
        = ([[(1:ℚ)], [2]] : List Vec).length) :=
  ⟨by norm_num,
    build_hnsw_names_aligned [[(1:ℚ)], [2]] [⟨"d0", "t0"⟩, ⟨"d1", "t1"⟩] 1
      (by norm_num)⟩

/-- C9. For every matrix and any two chunk sizes `c1, c2 ≥ 1`,
`build_hnsw` inserts exactly the same sequence of vectors — rows `0`
through `N−1` of the matrix in row order, each exactly once (the
concatenation of the contiguous chunks) — so the final index content is
identical regardless of chunk size: chunking does not affect semantics. -/
theorem build_hnsw_chunk_irrelevant (matrix : List Vec)
    (corpus : List Record) (c1 c2 : ℕ) (h1 : 0 < c1) (h2 : 0 < c2) :
    (build_hnsw matrix corpus c1).indexVecs =
      (build_hnsw matrix corpus c2).indexVecs ∧
    (build_hnsw matrix corpus c1).indexVecs = matrix := by
  have e1 : (build_hnsw matrix corpus c1).indexVecs = matrix := by
    show addChunks matrix c1 0 = matrix
    rw [addChunks_eq_drop matrix c1 h1 matrix.length 0 (by omega),
      List.drop_zero]
  have e2 : (build_hnsw matrix corpus c2).indexVecs = matrix := by
    show addChunks matrix c2 0 = matrix
    rw [addChunks_eq_drop matrix c2 h2 matrix.length 0 (by omega),
      List.drop_zero]
  exact ⟨e1.trans e2.symm, e1⟩

/-- Witness for C9: a three-row matrix inserted with chunk sizes 2 and 3. -/
theorem build_hnsw_chunk_irrelevant_witness :
    ((0 < 2) ∧ (0 < 3)) ∧
    ((build_hnsw [[(1:ℚ)], [2], [3]] [] 2).indexVecs =
        (build_hnsw [[(1:ℚ)], [2], [3]] [] 3).indexVecs ∧
      (build_hnsw [[(1:ℚ)], [2], [3]] [] 2).indexVecs = [[(1:ℚ)], [2], [3]]) :=
  ⟨⟨by norm_num, by norm_num⟩,
    build_hnsw_chunk_irrelevant [[(1:ℚ)], [2], [3]] [] 2 3 (by norm_num)
      (by norm_num)⟩

/-! ## Claims about the query engine -/

/-- Squared distances are nonnegative (shared helper). -/
theorem sqDist_nonneg : ∀ a b : Vec, 0 ≤ sqDist a b
  | [], [] => le_refl 0
  | [], _ :: _ => le_refl 0
  | _ :: _, [] => le_refl 0
  | x :: a, y :: b => by
    have h1 := sqDist_nonneg a b
    have h2 : (0:ℚ) ≤ (x - y) ^ 2 := sq_nonneg _
    simp only [sqDist]
    linarith

/-- The squared distance from a vector to itself vanishes (shared
helper). -/
theorem sqDist_self : ∀ a : Vec, sqDist a a = 0
  | [] => rfl
  | x :: a => by
    simp only [sqDist, sqDist_self a]
    ring

/-- Law of cosines for the embedded metric: on equal-length vectors the
squared distance expands through the inner product (shared helper). -/
theorem sqDist_expand : ∀ a b : Vec, a.length = b.length →
    sqDist a b = dotProd a a + dotProd b b - 2 * dotProd a b
  | [], [], _ => by simp [sqDist, dotProd]
  | [], _ :: _, h => by simp at h
  | _ :: _, [], h => by simp at h
  | x :: a, y :: b, h => by
    have ih := sqDist_expand a b (by simpa using h)
    simp only [sqDist, dotProd]
    rw [ih]
    ring

/-- Equal-length vectors at squared distance zero are equal (shared
helper). -/
theorem sqDist_eq_zero : ∀ a b : Vec, a.length = b.length →
    sqDist a b = 0 → a = b
  | [], [], _, _ => rfl
  | [], _ :: _, h, _ => by simp at h
  | _ :: _, [], h, _ => by simp at h
  | x :: a, y :: b, h, h0 => by
    have hx : (x - y) ^ 2 + sqDist a b = 0 := h0
    have h1 := sqDist_nonneg a b
    have h2 : (0:ℚ) ≤ (x - y) ^ 2 := sq_nonneg _
    have hxy : (x - y) ^ 2 = 0 := by linarith
    have htail : sqDist a b = 0 := by linarith
    have : x = y := by
      have := pow_eq_zero_iff (n := 2) (by norm_num) |>.mp hxy
      linarith [sub_eq_zero.mp this]
    rw [this, sqDist_eq_zero a b (by simpa using h) htail]

/-- Negating the right argument negates the inner product (shared
helper). -/
theorem dotProd_neg_right : ∀ a b : Vec,
    dotProd a (b.map (fun x => -x)) = -dotProd a b
  | [], [] => by simp [dotProd]
  | [], _ :: _ => by simp [dotProd]
  | _ :: _, [] => by simp [dotProd]
  | x :: a, y :: b => by
    simp only [List.map_cons, dotProd, dotProd_neg_right a b]
    ring

/-- The inner product of a negated vector with itself is unchanged
(shared helper). -/
theorem dotProd_neg_neg : ∀ b : Vec,
    dotProd (b.map (fun x => -x)) (b.map (fun x => -x)) = dotProd b b
  | [] => by simp [dotProd]
  | y :: b => by
    simp only [List.map_cons, dotProd, dotProd_neg_neg b]
    ring

/-- Cauchy–Schwarz bounds for unit vectors, via nonnegativity of the
squared distance to `x` and to `−x` (shared helper). -/
theorem dotProd_unit_bounds (q x : Vec) (hlen : x.length = q.length)
    (hq : dotProd q q = 1) (hx : dotProd x x = 1) :
    -1 ≤ dotProd q x ∧ dotProd q x ≤ 1 := by
  have hub := sqDist_nonneg q x
  rw [sqDist_expand q x hlen.symm, hq, hx] at hub
  have hlen2 : q.length = (x.map (fun v => -v)).length := by
    simpa using hlen.symm
  have hlb := sqDist_nonneg q (x.map (fun v => -v))
  rw [sqDist_expand q (x.map (fun v => -v)) hlen2, hq, dotProd_neg_neg,
    hx, dotProd_neg_right] at hlb
  constructor <;> linarith

/-- Every entry the scoring pass produces is a genuine row index paired
with its squared distance to the query (shared helper). -/
theorem mem_scored (idx : List Vec) (q : Vec) (p : Int × ℚ)
    (hp : p ∈ (List.range idx.length).map
      (fun (i : ℕ) => ((i : Int), sqDist q (idx.getD i [])))) :
    ∃ i, i < idx.length ∧ p = ((i : Int), sqDist q (idx.getD i [])) := by
  obtain ⟨i, hi, rfl⟩ := List.mem_map.mp hp
  exact ⟨i, List.mem_range.mp hi, rfl⟩

/-- Applying `filterMap` of the sentinel filter over sentinel padding drops
everything (shared helper). -/
theorem filterMap_sentinel_pad (names : List String) :
    ∀ n : ℕ, (List.replicate n ((-1 : Int), (0:ℚ))).filterMap
      (fun p => if p.1 = -1 then none
        else some (names.getD p.1.toNat "", p.2)) = [] := by
  intro n
  induction n with
  | zero => rfl
  | succ n ih => simp [List.replicate_succ, List.filterMap_cons, ih]

/-- Applying `filterMap` of the sentinel filter keeps every entry of a
sentinel-free list (shared helper). -/
theorem filterMap_sentinel_free (names : List String) :
    ∀ l : List (Int × ℚ), (∀ p ∈ l, p.1 ≠ -1) →
      l.filterMap (fun p => if p.1 = -1 then none
        else some (names.getD p.1.toNat "", p.2)) =
      l.map (fun p => (names.getD p.1.toNat "", p.2)) := by
  intro l
  induction l with
  | nil => intro _; rfl
  | cons p l ih =>
    intro h
    rw [List.filterMap_cons, List.map_cons, if_neg (h p (by simp)),
      ih (fun p hp => h p (by simp [hp]))]

/-- C8. For every query vector and every `k` greater than the number
of vectors held in the index, the search call fills its `k` result slots
with sentinel `-1` padding beyond the stored vectors, `k_nearest` drops
every sentinel silently and returns the remaining results as
`(name, distance)` pairs: strictly fewer than `k` results (exactly the
index population), with every surviving row index in bounds for the name
table, so no error is raised. -/
theorem k_nearest_underpopulated (idx : List Vec) (names : List String)
    (q : Vec) (k : ℕ) (hk : idx.length < k)
    (hnames : names.length = idx.length) :
    (searchModel idx q k).length = k ∧
    (k_nearest idx names q k).length = idx.length ∧
    (k_nearest idx names q k).length < k ∧
    (∀ p ∈ searchModel idx q k, p.1 ≠ -1 →
      0 ≤ p.1 ∧ p.1.toNat < names.length) := by
  have hsortlen : ((List.range idx.length).map
      (fun (i : ℕ) => ((i : Int), sqDist q (idx.getD i []))) |>.insertionSort
        distLE).length = idx.length := by
    rw [List.length_insertionSort, List.length_map, List.length_range]
  have hmemsort : ∀ p ∈ ((List.range idx.length).map
      (fun (i : ℕ) => ((i : Int), sqDist q (idx.getD i []))) |>.insertionSort
        distLE), ∃ i, i < idx.length ∧
          p = ((i : Int), sqDist q (idx.getD i [])) := by
    intro p hp
    exact mem_scored idx q p ((List.mem_insertionSort distLE).mp hp)
  have htike : ((List.range idx.length).map
      (fun (i : ℕ) => ((i : Int), sqDist q (idx.getD i []))) |>.insertionSort
        distLE).take k = ((List.range idx.length).map
      (fun (i : ℕ) => ((i : Int), sqDist q (idx.getD i []))) |>.insertionSort
        distLE) :=
    List.take_of_length_le (by omega)
  refine ⟨?_, ?_, ?_, ?_⟩
  · unfold searchModel
    simp only [List.length_append, List.length_take, List.length_replicate,
      hsortlen]
    omega
  · unfold k_nearest searchModel
    rw [htike, List.filterMap_append, filterMap_sentinel_pad,
      filterMap_sentinel_free names _ (fun p hp => by
        obtain ⟨i, hi, rfl⟩ := hmemsort p hp
        simp), List.append_nil, List.length_map, hsortlen]
  · unfold k_nearest searchModel
    rw [htike, List.filterMap_append, filterMap_sentinel_pad,
      filterMap_sentinel_free names _ (fun p hp => by
        obtain ⟨i, hi, rfl⟩ := hmemsort p hp
        simp), List.append_nil, List.length_map, hsortlen]
    exact hk
  · intro p hp hvalid
    unfold searchModel at hp
    rcases List.mem_append.mp hp with hin | hin
    · obtain ⟨i, hi, rfl⟩ := hmemsort p (List.mem_of_mem_take hin)
      simp only [Int.natCast_nonneg, true_and]
      rw [Int.toNat_natCast]
      omega
    · exact absurd (by
        have := List.eq_of_mem_replicate hin
        rw [this]) hvalid

/-- Witness for C8: an index holding one vector queried with `k = 3`. -/
theorem k_nearest_underpopulated_witness :
    ((([[(1:ℚ), 0]] : List Vec).length < 3) ∧
      (["a"] : List String).length = ([[(1:ℚ), 0]] : List Vec).length) ∧
    ((searchModel [[(1:ℚ), 0]] [1, 0] 3).length = 3 ∧
      (k_nearest [[(1:ℚ), 0]] ["a"] [1, 0] 3).length =
        ([[(1:ℚ), 0]] : List Vec).length ∧
      (k_nearest [[(1:ℚ), 0]] ["a"] [1, 0] 3).length < 3 ∧
      (∀ p ∈ searchModel [[(1:ℚ), 0]] [1, 0] 3, p.1 ≠ -1 →
        0 ≤ p.1 ∧ p.1.toNat < (["a"] : List String).length)) :=
  ⟨⟨by norm_num, by norm_num⟩,
    k_nearest_underpopulated [[(1:ℚ), 0]] ["a"] [1, 0] 3 (by norm_num) rfl⟩

/-- C4 counterexample. The claim asserts that the reported distance
always equals `2·(1 − CS)` and lies in `[0, 2]` while also (correctly)
noting that stored index vectors are *not* normalized at build time; for a
stored vector of non-unit norm both numeric assertions fail.  Store the
single vector `(−3, 0)` (norm `3 = √9`) and query with the normalized
vector `(1, 0)`: the reported distance is `16`, while the cosine
similarity is `CS = −3/(1·3) = −1`, so `2·(1 − CS) = 4 ≠ 16`, and `16`
also exceeds the claimed bound `2`. -/
theorem k_nearest_distance_counterexample :
    k_nearest [[(-3:ℚ), 0]] ["a"] [1, 0] 1 = [("a", 16)] ∧
    dotProd [(1:ℚ), 0] [(-3:ℚ), 0] = -3 ∧
    dotProd [(1:ℚ), 0] [(1:ℚ), 0] = 1 ∧
    dotProd [(-3:ℚ), 0] [(-3:ℚ), 0] = 9 ∧
    (16:ℚ) ≠ 2 * (1 - (-3) / (1 * 3)) ∧
    ¬((16:ℚ) ≤ 2) := by
  refine ⟨?_, by norm_num [dotProd], by norm_num [dotProd],
    by norm_num [dotProd], by norm_num, by norm_num⟩
  show List.filterMap _ _ = _
  norm_num [searchModel, sqDist, List.filterMap_cons]

/-- C4 amended. Every `(name, distance)` pair returned by
`k_nearest` reports the squared Euclidean distance between the normalized
query vector and a stored index vector taken exactly as stored; the stored
vectors are not pre-normalized at build time (`build_hnsw` inserts matrix
rows unchanged), only the query vector is normalized (`dotProd q q = 1`).
*When* a stored vector is itself unit-norm the distance equals
`2·(1 − CS)` with `CS` its cosine similarity to the query (`dotProd q x`
for unit vectors), is nonnegative, is at most `4`, and is at most `2`
exactly on the nonnegative-similarity range. -/
theorem k_nearest_distance_semantics (idx : List Vec) (names : List String)
    (q : Vec) (k : ℕ) (hq : dotProd q q = 1) :
    (∀ p ∈ k_nearest idx names q k, ∃ i, i < idx.length ∧
      p = (names.getD i "", sqDist q (idx.getD i []))) ∧
    (∀ x ∈ idx, x.length = q.length → dotProd x x = 1 →
      sqDist q x = 2 * (1 - dotProd q x) ∧
      0 ≤ sqDist q x ∧ sqDist q x ≤ 4 ∧
      (0 ≤ dotProd q x → sqDist q x ≤ 2)) ∧
    (∀ (mat : List Vec) (corpus : List Record) (c : ℕ), 0 < c →
      (build_hnsw mat corpus c).indexVecs = mat) := by
  refine ⟨fun p hp => ?_, fun x _ hlen hx => ?_, fun mat corpus c hc => ?_⟩
  · unfold k_nearest at hp
    obtain ⟨a, ha, hfa⟩ := List.mem_filterMap.mp hp
    unfold searchModel at ha
    rcases List.mem_append.mp ha with hin | hin
    · obtain ⟨i, hi, rfl⟩ := mem_scored idx q a
        ((List.mem_insertionSort distLE).mp (List.mem_of_mem_take hin))
      rw [if_neg (by simp)] at hfa
      refine ⟨i, hi, ?_⟩
      rw [← Option.some_inj.mp hfa]
      simp
    · rw [List.eq_of_mem_replicate hin] at hfa
      simp at hfa
  · obtain ⟨hlb, hub⟩ := dotProd_unit_bounds q x hlen hq hx
    have hexp : sqDist q x = 2 * (1 - dotProd q x) := by
      rw [sqDist_expand q x hlen.symm, hq, hx]
      ring
    exact ⟨hexp, sqDist_nonneg q x, by rw [hexp]; linarith,
      fun hpos => by rw [hexp]; linarith⟩
  · show addChunks mat c 0 = mat
    rw [addChunks_eq_drop mat c hc mat.length 0 (by omega), List.drop_zero]

/-- Witness for C4 (amended): the unit query `(1, 0)` against an index
holding the unit vector `(0, 1)`. -/
theorem k_nearest_distance_semantics_witness :
    (dotProd [(1:ℚ), 0] [(1:ℚ), 0] = 1) ∧
    ((∀ p ∈ k_nearest [[(0:ℚ), 1]] ["a"] [1, 0] 1, ∃ i,
        i < ([[(0:ℚ), 1]] : List Vec).length ∧
        p = ((["a"] : List String).getD i "",
          sqDist [1, 0] (([[(0:ℚ), 1]] : List Vec).getD i []))) ∧
      (∀ x ∈ ([[(0:ℚ), 1]] : List Vec),
        x.length = ([(1:ℚ), 0] : Vec).length → dotProd x x = 1 →
        sqDist [1, 0] x = 2 * (1 - dotProd [1, 0] x) ∧
        0 ≤ sqDist [(1:ℚ), 0] x ∧ sqDist [(1:ℚ), 0] x ≤ 4 ∧
        (0 ≤ dotProd [(1:ℚ), 0] x → sqDist [(1:ℚ), 0] x ≤ 2)) ∧
      (∀ (mat : List Vec) (corpus : List Record) (c : ℕ), 0 < c →
        (build_hnsw mat corpus c).indexVecs = mat)) :=
  ⟨by norm_num [dotProd],
    k_nearest_distance_semantics [[(0:ℚ), 1]] ["a"] [1, 0] 1
      (by norm_num [dotProd])⟩

/-- Lookup `getD` agrees with `get` inside the bounds (shared helper). -/
theorem getD_eq_get_here (l : List Vec) (n : ℕ) (h : n < l.length) :
    l.getD n [] = l.get ⟨n, h⟩ := by
  rw [List.getD_eq_getElem l [] h]
  rfl

/-- C7 counterexample. The round-trip claim fails when the matrix
holds vectors of non-unit norm (which the builder does not normalize).
Store `V = (10, 0)` at row 0 and `(1, 0)` at row 1; the query path
normalizes `V` to `(1, 0)` — indeed `dotProd V V = 100`, so
`‖V‖ = 10` and `V = 10 · (1, 0)`.  The search then ranks row 1 first with
distance `0`, while the queried-for row 0 comes last with distance `81`:
row `r = 0` is not the top result and its distance is far from `0`. -/
theorem k_nearest_roundtrip_counterexample :
    k_nearest [[(10:ℚ), 0], [1, 0]] ["a", "b"] [1, 0] 2 =
      [("b", 0), ("a", 81)] ∧
    dotProd [(10:ℚ), 0] [(10:ℚ), 0] = 100 ∧
    [(10:ℚ), 0] = List.map (fun x => 10 * x) [(1:ℚ), 0] := by
  refine ⟨?_, by norm_num [dotProd], by norm_num⟩
  show List.filterMap _ _ = _
  norm_num [searchModel, sqDist, distLE, List.insertionSort,
    List.orderedInsert, List.filterMap_cons]

/-- C7 amended. For every matrix of unit-norm vectors (under the
embedding provider's convention the stored embeddings are unit vectors, in
which case the query path's L2 normalization maps the stored vector `V`
back to itself) that includes `V` at row `r`, building the index and
querying with the normalized `V` yields as the top-ranked result a row
whose stored vector equals `V`, at distance exactly `0` (exact arithmetic
replaces "≈ 0 within floating-point tolerance"); when `V` occupies a
unique row, that top result is row `r` itself.  Without the unit-norm
proviso the property fails (see the counterexample). -/
theorem k_nearest_roundtrip (idx : List Vec) (names : List String)
    (V : Vec) (r k : ℕ) (hr : idx.get? r = some V)
    (hunitV : dotProd V V = 1)
    (hlen : ∀ v ∈ idx, v.length = V.length) (hk : 0 < k) :
    ∃ i, i < idx.length ∧ idx.getD i [] = V ∧
      (k_nearest idx names V k).head? = some (names.getD i "", 0) ∧
      ((∀ j, j < idx.length → idx.getD j [] = V → j = r) → i = r) := by
  have hrn : r < idx.length := List.get?_eq_some.mp hr |>.1
  have hgetr : idx.getD r [] = V := by
    rw [getD_eq_get_here idx r hrn]
    exact Option.some_inj.mp ((List.get?_eq_get hrn).symm.trans hr)
  have hsorted : List.Sorted distLE (((List.range idx.length).map
      (fun (i : ℕ) => ((i : Int), sqDist V (idx.getD i [])))).insertionSort
        distLE) := List.sorted_insertionSort distLE _
  have hlenS : (((List.range idx.length).map
      (fun (i : ℕ) => ((i : Int), sqDist V (idx.getD i [])))).insertionSort
        distLE).length = idx.length := by
    rw [List.length_insertionSort, List.length_map, List.length_range]
  have hpos : 0 < (((List.range idx.length).map
      (fun (i : ℕ) => ((i : Int), sqDist V (idx.getD i [])))).insertionSort
        distLE).length := by omega
  obtain ⟨p, rest, hS⟩ : ∃ p rest, (((List.range idx.length).map
      (fun (i : ℕ) => ((i : Int), sqDist V (idx.getD i [])))).insertionSort
        distLE) = p :: rest := by
    cases hS : (((List.range idx.length).map
        (fun (i : ℕ) => ((i : Int), sqDist V (idx.getD i [])))).insertionSort
          distLE) with
    | nil => rw [hS] at hpos; simp at hpos
    | cons p rest => exact ⟨p, rest, rfl⟩
  obtain ⟨i, hi, hpi⟩ := mem_scored idx V p (by
    rw [← List.mem_insertionSort (r := distLE), hS]
    simp)
  have her : ((r : Int), (0 : ℚ)) ∈ (((List.range idx.length).map
      (fun (i : ℕ) => ((i : Int), sqDist V (idx.getD i [])))).insertionSort
        distLE) := by
    rw [List.mem_insertionSort]
    refine List.mem_map.mpr ⟨r, List.mem_range.mpr hrn, ?_⟩
    rw [hgetr, sqDist_self]
  have hp2 : p.2 = 0 := by
    have hle : p.2 ≤ 0 := by
      rw [hS] at her hsorted
      rcases List.mem_cons.mp her with heq | hmem
      · rw [← heq]
      · exact List.rel_of_sorted_cons hsorted _ hmem
    have hge : 0 ≤ p.2 := by
      rw [hpi]
      exact sqDist_nonneg _ _
    linarith
  have hxV : idx.getD i [] = V := by
    have hd : sqDist V (idx.getD i []) = 0 := by
      have := hp2
      rw [hpi] at this
      simpa using this
    have hmem : idx.getD i [] ∈ idx := by
      rw [getD_eq_get_here idx i hi]
      exact List.get_mem idx i hi
    exact (sqDist_eq_zero V (idx.getD i [])
      (hlen (idx.getD i []) hmem).symm hd).symm
  refine ⟨i, hi, hxV, ?_, fun huniq => huniq i hi hxV⟩
  obtain ⟨k2, rfl⟩ : ∃ k2, k = k2 + 1 := ⟨k - 1, by omega⟩
  unfold k_nearest searchModel
  rw [hS, List.take_succ_cons, List.cons_append, List.filterMap_cons,
    if_neg (by rw [hpi]; simp)]
  rw [List.head?_cons]
  have hp1 : p.1.toNat = i := by rw [hpi]; simp
  rw [hp1, hp2]

/-- Witness for C7 (amended): the unit vector `(0, 1)` stored at row 1 of
a two-row unit-norm matrix, queried with `k = 1`. -/
theorem k_nearest_roundtrip_witness :
    (([[(1:ℚ), 0], [0, 1]] : List Vec).get? 1 = some [0, 1] ∧
      dotProd [(0:ℚ), 1] [(0:ℚ), 1] = 1 ∧ (0 < 1)) ∧
    (∃ i, i < ([[(1:ℚ), 0], [0, 1]] : List Vec).length ∧
      ([[(1:ℚ), 0], [0, 1]] : List Vec).getD i [] = [0, 1] ∧
      (k_nearest [[(1:ℚ), 0], [0, 1]] ["a", "b"] [0, 1] 1).head? =
        some ((["a", "b"] : List String).getD i "", 0) ∧
      ((∀ j, j < ([[(1:ℚ), 0], [0, 1]] : List Vec).length →
        ([[(1:ℚ), 0], [0, 1]] : List Vec).getD j [] = [0, 1] → j = 1) →
          i = 1)) := by
  have hlen : ∀ v ∈ ([[(1:ℚ), 0], [0, 1]] : List Vec),
      v.length = ([(0:ℚ), 1] : Vec).length := by
    intro v hv
    rcases List.mem_cons.mp hv with rfl | hv
    · rfl
    rcases List.mem_cons.mp hv with rfl | hv
    · rfl
    · simp at hv
  exact ⟨⟨rfl, by norm_num [dotProd], by norm_num⟩,
    k_nearest_roundtrip [[(1:ℚ), 0], [0, 1]] ["a", "b"] [0, 1] 1 1 rfl
      (by norm_num [dotProd]) hlen (by norm_num)⟩

end LeanSearch
